import Mathlib

set_option maxRecDepth 8000

/-!
Verification of the 2-d partitioning tree (`kdtree::PointSet` in `src/2dtree.cpp`)
and the `Point` / `Rect` primitives it is built on.

Embedding conventions, fixed once for the whole file:
* `double` coordinates are embedded as exact rationals.  All comparisons the code
  performs on coordinates, coordinate differences and rectangle distances are
  exact arithmetic on rationals.
* `Point::distance` computes a Euclidean distance with `std::sqrt`.  The code
  only ever compares distances with each other, compares a distance with an
  axis gap `|delta|`, and tests a distance against `0`.  Since `sqrt` is
  strictly monotone on nonnegative inputs, each of those comparisons is
  embedded as the corresponding comparison of squared quantities
  (`Point.distSq`, and `delta ^ 2` for the axis gap).
* `std::numeric_limits<double>::epsilon()` is the constant `2 ^ (-52)`,
  embedded exactly as the rational `eps`.
* the condition `max_depth > 2 * std::log(m_size)` of `reBuild` mixes an
  integer with a floating-point natural logarithm; it is embedded as an
  explicit boolean parameter `cond : Nat -> Nat -> Bool` of `put` / `reBuild`,
  related to the exact real condition `d > 2 * Real.log n` inside the theorems.
  `rebuildCond` is a concrete sound instance (it is `true` only when the exact
  condition holds, because `271/100 < e`).
* `std::nth_element(first, m, last, comp)` only guarantees that after the call
  the element at `m` is one the range could have at `m` when sorted, smaller
  elements before it and larger after.  It is embedded as a stable insertion
  sort of the subrange (`sortRange`), a deterministic instance of that
  contract.
-/

/-- The `Point` value type of `primitives.h`: an immutable pair of coordinates. -/
structure Point where
  x : ℚ
  y : ℚ
deriving DecidableEq, Repr

instance : Inhabited Point := ⟨⟨0, 0⟩⟩

/-- `std::numeric_limits<double>::epsilon()`, the tolerance used by
`Point::operator==` and `Rect::contains`. -/
def eps : ℚ := mkRat 1 (2 ^ 52)

/-- Square of the Euclidean distance computed by `Point::distance`.  The code
only compares distances, so the square is a faithful embedding (see the header
comment). -/
def Point.distSq (a b : Point) : ℚ :=
  (a.x - b.x) * (a.x - b.x) + (a.y - b.y) * (a.y - b.y)

/-- `Point::operator==`: both coordinate differences are below `eps`. -/
def Point.eq (a b : Point) : Bool :=
  decide (|a.x - b.x| < eps) && decide (|a.y - b.y| < eps)

/-- The `Rect` value type: an axis-aligned box given by its two corners. -/
structure Rect where
  left_bottom : Point
  right_top : Point
deriving DecidableEq, Repr

def Rect.xmin (r : Rect) : ℚ := r.left_bottom.x

def Rect.ymin (r : Rect) : ℚ := r.left_bottom.y

def Rect.xmax (r : Rect) : ℚ := r.right_top.x

def Rect.ymax (r : Rect) : ℚ := r.right_top.y

/-- `Rect::distance`: if the x coordinate is inside the x range, measure the
gap in y (zero if also inside in y), otherwise measure only the gap in x. -/
def Rect.distance (r : Rect) (p : Point) : ℚ :=
  if r.xmin ≤ p.x ∧ p.x ≤ r.xmax then
    if r.ymin ≤ p.y ∧ p.y ≤ r.ymax then 0
    else min |p.y - r.ymin| |p.y - r.ymax|
  else min |p.x - r.xmin| |p.x - r.xmax|

/-- `Rect::contains`: the distance to the box is below `eps` in absolute
value. -/
def Rect.contains (r : Rect) (p : Point) : Bool := decide (|r.distance p| < eps)

/-- Exact closed-box membership (both coordinates between the corners).  This
is not a function of the C++ code; it is the predicate needed to state what
the pruning of `findPointsInRectangle` actually preserves. -/
def Rect.inBox (r : Rect) (p : Point) : Bool :=
  decide (r.xmin ≤ p.x) && decide (p.x ≤ r.xmax) &&
  decide (r.ymin ≤ p.y) && decide (p.y ≤ r.ymax)

/-- The node structure of `kdtree::PointSet` (point, depth and the two owned
children; the weak parent pointer is represented by paths from the root, see
`nextAux`). -/
inductive KdTree where
  | nil : KdTree
  | node (point : Point) (depth : Nat) (left : KdTree) (right : KdTree) : KdTree
deriving DecidableEq, Repr

/-- The in-order (left, self, right) point sequence of a tree. -/
def KdTree.inorder : KdTree → List Point
  | .nil => []
  | .node p _ l r => l.inorder ++ p :: r.inorder

/-- The splitting coordinate at depth `d`: `x` at even depth, `y` at odd. -/
def axisC (d : Nat) (p : Point) : ℚ := if d % 2 = 0 then p.x else p.y

/-- `kdtree::PointSet::insert` on the node graph.  Returns the new tree,
whether a node was created (the code increments `m_size` exactly then), and
the largest `depth` argument seen along the descent (the code folds every
visited `depth` into `max_depth` with `std::max`).  The comparison uses the
stored `node->depth`, the created node stores the current `depth` argument,
exactly as the code does. -/
def KdTree.insertAux (p : Point) : KdTree → Nat → KdTree × Bool × Nat
  | .nil, d => (.node p d .nil .nil, true, d)
  | .node pt dep l r, d =>
    if Point.eq pt p then (.node pt dep l r, false, d)
    else if axisC dep p ≤ axisC dep pt then
      let res := insertAux p l (d + 1)
      (.node pt dep res.1 r, res.2.1, max d res.2.2)
    else
      let res := insertAux p r (d + 1)
      (.node pt dep l res.1, res.2.1, max d res.2.2)

/-- The state of a `kdtree::PointSet`: `max_depth`, owned root, `m_size`. -/
structure PointSet where
  max_depth : Nat
  m_root : KdTree
  m_size : Nat
deriving DecidableEq, Repr

/-- The insertion step of `put`: `m_root = insert(p, m_root, 0)` together with
its bookkeeping of `m_size` and `max_depth` (also the step the tree builder
performs for each median). -/
def PointSet.putInsert (p : Point) (s : PointSet) : PointSet :=
  let res := s.m_root.insertAux p 0
  ⟨max s.max_depth res.2.2, res.1, s.m_size + if res.2.1 then 1 else 0⟩

/-- `kdtree::PointSet::find`, reduced to the only use the code makes of its
result (`contains` compares it with `nullptr`). -/
def KdTree.findB (p : Point) : KdTree → Bool
  | .nil => false
  | .node pt dep l r =>
    if Point.eq pt p then true
    else if axisC dep p ≤ axisC dep pt then l.findB p
    else r.findB p

/-- `kdtree::PointSet::contains`. -/
def PointSet.contains (s : PointSet) (p : Point) : Bool := s.m_root.findB p

/-- `kdtree::PointSet::findPointsInRectangle`: push the node point if the
rectangle contains it, then visit the left child when the splitting coordinate
is at least the corresponding lower bound of the rectangle and the right child
when it is at most the corresponding upper bound. -/
def KdTree.findPointsInRectangle (rect : Rect) : KdTree → List Point → List Point
  | .nil, acc => acc
  | .node pt dep l r, acc =>
    let acc1 := if rect.contains pt then acc ++ [pt] else acc
    let acc2 :=
      if (if dep % 2 = 0 then rect.xmin ≤ pt.x else rect.ymin ≤ pt.y) then
        l.findPointsInRectangle rect acc1
      else acc1
    if (if dep % 2 = 0 then pt.x ≤ rect.xmax else pt.y ≤ rect.ymax) then
      r.findPointsInRectangle rect acc2
    else acc2

/-- `kdtree::PointSet::range`: the materialized result buffer. -/
def PointSet.range (s : PointSet) (rect : Rect) : List Point :=
  s.m_root.findPointsInRectangle rect []

/-- `kdtree::PointSet::findNeighbour`.  `dist` and its comparisons are
embedded through squares: `dist < point.distance(closest)` becomes
`distSq pt q < distSq q best`, `dist == 0` becomes `distSq pt q = 0`, and the
pruning test `|delta| >= point.distance(closest)` becomes
`distSq q best2 ≤ delta ^ 2`. -/
def KdTree.findNeighbour (q : Point) : KdTree → Point → Point
  | .nil, best => best
  | .node pt dep l r, best =>
    let dsq := Point.distSq pt q
    let best1 := if dsq < Point.distSq q best then pt else best
    if dsq = 0 then best1
    else
      let delta := axisC dep pt - axisC dep q
      if 0 < delta then
        let best2 := l.findNeighbour q best1
        if Point.distSq q best2 ≤ delta * delta then best2
        else r.findNeighbour q best2
      else
        let best2 := r.findNeighbour q best1
        if Point.distSq q best2 ≤ delta * delta then best2
        else l.findNeighbour q best2

/-- `kdtree::PointSet::nearest(point)`.  The C++ body starts with
`Point closest_point(*m_root->m_point)`, a null dereference when the set is
empty: that fault is the `Except.error` case.  When it returns, the returned
`std::optional` is always engaged, with the point in the `Except.ok` case. -/
def PointSet.nearest (s : PointSet) (q : Point) : Except Unit Point :=
  match s.m_root with
  | .nil => .error ()
  | .node pt dep l r => .ok ((KdTree.node pt dep l r).findNeighbour q pt)

/-- The largest squared distance from `q` occurring in the buffer (`0` for an
empty buffer; squared distances are nonnegative, so the padding is neutral). -/
def dmax (q : Point) : List Point → ℚ
  | [] => 0
  | x :: xs => max (Point.distSq q x) (dmax q xs)

/-- Replace the element `std::max_element(begin, end, comp)` selects with `x`.
With the comparator `lhs.distance(p) <= rhs.distance(p)` the scan updates its
candidate on ties, so it selects the LAST element attaining the maximal
distance; this function replaces exactly that occurrence. -/
def replaceLastMax (q x : Point) : List Point → List Point
  | [] => []
  | y :: ys =>
    if ys ≠ [] ∧ Point.distSq q y ≤ dmax q ys then y :: replaceLastMax q x ys
    else x :: ys

/-- One iteration of the `nearest(p, k)` collection loop: append while the
buffer is below `k`, otherwise replace the farthest buffered point when the
new point is strictly closer. -/
def knnStep (q : Point) (k : Nat) (buf : List Point) (x : Point) : List Point :=
  if buf.length < k then buf ++ [x]
  else if Point.distSq q x < dmax q buf then replaceLastMax q x buf
  else buf

/-- `kdtree::PointSet::nearest(p, k)`: full traversal is returned when
`k >= m_size`, an empty range when `k == 0`, otherwise the bounded selection
over the in-order traversal.  The element sequence the iterators deliver is
the in-order walk (see `nextAux` for the successor function and its
uninitialized-flag defect). -/
def PointSet.nearestK (s : PointSet) (q : Point) (k : Nat) : List Point :=
  if s.m_size ≤ k then s.m_root.inorder
  else if k = 0 then []
  else s.m_root.inorder.foldl (knnStep q k) []

/-- Stable insertion of a point into a list ascending on the `d` axis. -/
def insortAxis (d : Nat) (x : Point) : List Point → List Point
  | [] => [x]
  | y :: ys => if axisC d x < axisC d y then x :: y :: ys else y :: insortAxis d x ys

/-- Stable insertion sort, ascending on the `d` axis (the comparator
`buildTree` hands to `std::nth_element`). -/
def sortAxis (d : Nat) : List Point → List Point
  | [] => []
  | x :: xs => insortAxis d x (sortAxis d xs)

/-- Sort the subrange `[s, e)` of the buffer in place, the deterministic
instance of the `std::nth_element` contract used by `buildTree` (see the
header comment). -/
def sortRange (d s e : Nat) (pts : List Point) : List Point :=
  pts.take s ++ sortAxis d ((pts.drop s).take (e - s)) ++ pts.drop e

/-- `kdtree::PointSet::buildTree`: pick the median position of `[start, stop)`
on the axis of the current depth, insert that element through the ordinary
inserter at depth `0` from the root, then recurse on the two halves at
`depth + 1`, threading the partially rearranged buffer through.  The `fuel`
argument only bounds the recursion (each recursive call strictly shrinks
`stop - start`, so with `fuel ≥ stop - start` the fuel clause is never
reached); call sites pass the buffer length. -/
def buildTreeList : Nat → PointSet → List Point → Nat → Nat → Nat → PointSet × List Point
  | 0, s, pts, _, _, _ => (s, pts)
  | fuel + 1, s, pts, start, stop, d =>
    if stop ≤ start then (s, pts)
    else
      let middle := (stop + start) / 2
      let pts1 := sortRange d start stop pts
      let s1 := PointSet.putInsert (pts1.getD middle ⟨0, 0⟩) s
      let r1 := buildTreeList fuel s1 pts1 start middle (d + 1)
      buildTreeList fuel r1.1 r1.2 (middle + 1) stop (d + 1)

/-- The default-constructed set: no root, zero size, zero recorded depth. -/
def PointSet.emptySet : PointSet := ⟨0, .nil, 0⟩

/-- The bulk-load constructor after file parsing: build the tree from the
parsed point list (file handling itself is out of scope, per the spec). -/
def fromList (pts : List Point) : PointSet :=
  (buildTreeList pts.length .emptySet pts 0 pts.length 0).1

/-- `kdtree::PointSet::reBuild`, with the floating-point trigger
`max_depth > 2 * std::log(m_size)` abstracted into `cond` (see the header
comment).  When the trigger fires the code dumps the current points by
iterating `begin()`/`end()` - the in-order walk - resets `m_size`, `max_depth`
and `m_root`, and rebuilds through `buildTree`. -/
def PointSet.reBuild (cond : Nat → Nat → Bool) (s : PointSet) : PointSet :=
  if cond s.max_depth s.m_size then
    (buildTreeList s.m_root.inorder.length .emptySet s.m_root.inorder 0
      s.m_root.inorder.length 0).1
  else s

/-- `kdtree::PointSet::put`: insert, then rebalance. -/
def PointSet.put (cond : Nat → Nat → Bool) (p : Point) (s : PointSet) : PointSet :=
  (s.putInsert p).reBuild cond

/-- A concrete executable instance of the rebuild trigger.  `d > 2 * ln n` is
equivalent to `n ^ 2 < e ^ d`; since `271 / 100 < e`, the test
`100 ^ d * n ^ 2 < 271 ^ d` implies the exact condition, and it agrees with it
at every state the concrete runs below visit (checked against `Real.log` in
the corresponding theorems). -/
def rebuildCond (d n : Nat) : Bool := decide (100 ^ d * n ^ 2 < 271 ^ d)

/-- The states reachable by a bulk build followed by any sequence of `put`
calls, for every resolution `cond` of the floating-point rebuild trigger. -/
inductive Reachable : PointSet → Prop
  | bulk (pts : List Point) : Reachable (fromList pts)
  | putStep (cond : Nat → Nat → Bool) (p : Point) {s : PointSet} :
      Reachable s → Reachable (s.put cond p)

/-- The kd invariant at structural depth `d`: the stored depth agrees with the
structural depth, every point of the left subtree is at most the node on the
splitting coordinate, every point of the right subtree strictly greater, and
both subtrees satisfy the invariant one level deeper. -/
def KdTree.wf : KdTree → Nat → Bool
  | .nil, _ => true
  | .node pt dep l r, d =>
    decide (dep = d) &&
    l.inorder.all (fun q => decide (axisC d q ≤ axisC d pt)) &&
    r.inorder.all (fun q => decide (axisC d pt < axisC d q)) &&
    l.wf (d + 1) && r.wf (d + 1)

/-- All stored node depths are at most `b`. -/
def KdTree.dle : KdTree → Nat → Bool
  | .nil, _ => true
  | .node _ dep l r, b => decide (dep ≤ b) && l.dle b && r.dle b

/-- The state invariant every reachable `PointSet` satisfies: the kd invariant
from depth `0`, all stored depths bounded by `max_depth`, and `m_size` equal
to the number of stored points. -/
def Good (s : PointSet) : Prop :=
  s.m_root.wf 0 = true ∧ s.m_root.dle s.max_depth = true ∧
  s.m_size = s.m_root.inorder.length

/-- Navigate from the root along a path (`false` = left child, `true` = right
child).  Paths play the role of the node pointers plus their weak parent
back-references. -/
def KdTree.subtreeAt : KdTree → List Bool → Option KdTree
  | t, [] => some t
  | .nil, _ :: _ => none
  | .node _ _ l r, dir :: rest => KdTree.subtreeAt (if dir then r else l) rest

/-- `kdtree::PointSet::left`: the path to the leftmost descendant. -/
def KdTree.leftmostPath : KdTree → List Bool
  | .nil => []
  | .node _ _ .nil _ => []
  | .node _ _ (.node a b c d) _ => false :: (KdTree.node a b c d).leftmostPath

/-- The upward walk of `next`: pop path entries while the current node is the
right child of its parent. -/
def dropTrailingTrue (p : List Bool) : List Bool := (p.reverse.dropWhile id).reverse

/-- The static `kdtree::PointSet::next(root, node)` successor function, on
paths.  The local `bool isRight` of the C++ body is DECLARED WITHOUT AN
INITIALIZER and is only assigned inside the upward `while` loop; the
parameter `g` is the garbage value the uninitialized read yields when the
loop body never ran.  `none` models the returned null pointer (the end
sentinel). -/
def nextAux (g : Bool) (root : KdTree) (path : List Bool) : Option (List Bool) :=
  match root.subtreeAt path with
  | none => none
  | some .nil => none
  | some (.node _ _ _ (.node a b c d)) =>
      some (path ++ true :: (KdTree.node a b c d).leftmostPath)
  | some (.node _ _ _ .nil) =>
      let path1 := dropTrailingTrue path
      let isR := if path1 = path then g else true
      if path1 = [] then (if isR then none else some path1)
      else some path1.dropLast

/-! Concrete states used by the refutations and instantiations below. -/

/-- The point `(eps/2, 0)`: stored first, it absorbs the put of `cexP`. -/
def cexQ : Point := ⟨mkRat 1 (2 ^ 53), 0⟩

/-- The point `(-eps/4, 0)`: epsilon-equal to `cexQ`, put second. -/
def cexP : Point := ⟨mkRat (-1) (2 ^ 54), 0⟩

/-- The point `(0, 100)`. -/
def cexR : Point := ⟨0, 100⟩

/-- The point `(-5, 50)`. -/
def cexM2 : Point := ⟨-5, 50⟩

/-- The point `(-10, 50)`: its put trips the rebuild trigger at state
`(max_depth, size) = (3, 4)`. -/
def cexM1 : Point := ⟨-10, 50⟩

/-- State after `put cexQ; put cexP` from the empty set. -/
def cexS2 : PointSet :=
  ((fromList []).put rebuildCond cexQ).put rebuildCond cexP

/-- State after additionally `put cexR`. -/
def cexS3 : PointSet := cexS2.put rebuildCond cexR

/-- State after additionally `put cexM2`. -/
def cexS4 : PointSet := cexS3.put rebuildCond cexM2

/-- State after additionally `put cexM1`, whose rebuild separates `cexP` from
its epsilon-equal stored point `cexQ`. -/
def cexS5 : PointSet := cexS4.put rebuildCond cexM1

/-- The stored point `(-eps/2, 1/2)` of the range refutation: it sits within
`eps` left of the query rectangle. -/
def cexRangeRoot : Point := ⟨mkRat (-1) (2 ^ 53), mkRat 1 2⟩

/-- The stored point `(-3*eps/4, 1/4)`: `Rect::contains` accepts it but the
pruning of `findPointsInRectangle` never visits it. -/
def cexRangeMissed : Point := ⟨mkRat (-3) (2 ^ 54), mkRat 1 4⟩

/-- The query rectangle `[(0,0), (1,1)]`. -/
def cexRangeRect : Rect := ⟨⟨0, 0⟩, ⟨1, 1⟩⟩

/-- The two-point set `{cexRangeRoot, cexRangeMissed}` (bulk built). -/
def cexRangeSet : PointSet := fromList [cexRangeRoot, cexRangeMissed]

/-- The point `(0, 100)` of the duplicate-size refutation. -/
def cexDupRoot : Point := ⟨0, 100⟩

/-- The point `(-eps/4, 0)`, stored in the left subtree. -/
def cexDupA : Point := ⟨mkRat (-1) (2 ^ 54), 0⟩

/-- The point `(eps/2, 0)`: epsilon-equal to the stored `cexDupA`, but its
search path goes right of the root, so it is inserted anyway. -/
def cexDupB : Point := ⟨mkRat 1 (2 ^ 53), 0⟩

/-- State after `put cexDupRoot; put cexDupA` from the empty set. -/
def cexDupS2 : PointSet :=
  ((fromList []).put rebuildCond cexDupRoot).put rebuildCond cexDupA

/-- The spec running example `{(1,1), (2,2), (3,3)}` as a bulk-built set. -/
def baseSet : PointSet := fromList [⟨1, 1⟩, ⟨2, 2⟩, ⟨3, 3⟩]

section RatEval

/-! `Batteries` marks the rational field operations `[irreducible]`, which
blocks their evaluation inside `decide`; restore the default transparency for
the proofs of this development. -/

attribute [local semireducible] Rat.add Rat.sub Rat.mul

/-! Basic arithmetic facts about the embedded primitives. -/

lemma eps_pos : (0 : ℚ) < eps := by norm_num [eps]

lemma distSq_nonneg (a b : Point) : 0 ≤ Point.distSq a b := by
  unfold Point.distSq
  have h1 := mul_self_nonneg (a.x - b.x)
  have h2 := mul_self_nonneg (a.y - b.y)
  linarith

lemma distSq_comm (a b : Point) : Point.distSq a b = Point.distSq b a := by
  unfold Point.distSq; ring

lemma distSq_ge_axis (d : Nat) (q p : Point) :
    (axisC d p - axisC d q) * (axisC d p - axisC d q) ≤ Point.distSq q p := by
  unfold axisC Point.distSq
  split <;> nlinarith [mul_self_nonneg (q.x - p.x), mul_self_nonneg (q.y - p.y)]

lemma point_eq_self (p : Point) : Point.eq p p = true := by
  simp [Point.eq, eps_pos]

/-! Exact values of the rebuild trigger `max_depth > 2 * log(size)` at the
states visited by the concrete runs below. -/

lemma exp_three_gt_sixteen : (16 : ℝ) < Real.exp 3 := by
  have h := Real.exp_one_gt_d9
  have h3 : Real.exp 3 = Real.exp 1 * Real.exp 1 * Real.exp 1 := by
    rw [← Real.exp_add, ← Real.exp_add]; norm_num
  nlinarith [Real.exp_pos 1]

lemma two_log_four_lt_three : 2 * Real.log 4 < 3 := by
  have h4 : (0 : ℝ) < 4 := by norm_num
  have hlt : Real.log 4 < 3 / 2 := by
    rw [Real.log_lt_iff_lt_exp h4]
    have hsq : Real.exp (3 / 2) * Real.exp (3 / 2) = Real.exp 3 := by
      rw [← Real.exp_add]; norm_num
    nlinarith [Real.exp_pos (3 / 2), exp_three_gt_sixteen]
  linarith

lemma one_le_two_log_two : (1 : ℝ) ≤ 2 * Real.log 2 := by
  have h2 : (0 : ℝ) < 2 := by norm_num
  have hle : (1 : ℝ) / 2 ≤ Real.log 2 := by
    rw [Real.le_log_iff_exp_le h2]
    have hsq : Real.exp (1 / 2) * Real.exp (1 / 2) = Real.exp 1 := by
      rw [← Real.exp_add]; norm_num
    nlinarith [Real.exp_pos (1 / 2), Real.exp_one_lt_d9]
  linarith

lemma two_le_two_log_three : (2 : ℝ) ≤ 2 * Real.log 3 := by
  have h3 : (0 : ℝ) < 3 := by norm_num
  have hle : (1 : ℝ) ≤ Real.log 3 := by
    rw [Real.le_log_iff_exp_le h3]
    have := Real.exp_one_lt_d9
    linarith
  linarith

lemma two_log_one_eq_zero : 2 * Real.log 1 = 0 := by
  rw [Real.log_one]; ring

/-- Every point `findNeighbour` can return is either the incoming candidate or
a point stored in the searched tree. -/
lemma findNeighbour_mem (t : KdTree) (q b : Point) :
    t.findNeighbour q b = b ∨ t.findNeighbour q b ∈ t.inorder := by
  induction t generalizing b with
  | nil => left; rfl
  | node pt dep l r ihl ihr =>
    have hb1 : (if Point.distSq pt q < Point.distSq q b then pt else b) = pt ∨
        (if Point.distSq pt q < Point.distSq q b then pt else b) = b := by
      split
      · exact Or.inl rfl
      · exact Or.inr rfl
    have hmem : ∀ c : Point, c = pt ∨ c ∈ l.inorder ∨ c ∈ r.inorder →
        c ∈ (KdTree.node pt dep l r).inorder := by
      intro c hc
      simp only [KdTree.inorder, List.mem_append, List.mem_cons]
      tauto
    simp only [KdTree.findNeighbour]
    set best1 := if Point.distSq pt q < Point.distSq q b then pt else b with hbdef
    by_cases h0 : Point.distSq pt q = 0
    · simp only [h0, if_pos rfl]
      rcases hb1 with h | h
      · right; exact hmem _ (Or.inl h)
      · left; exact h
    · simp only [if_neg h0]
      by_cases hd : 0 < axisC dep pt - axisC dep q
      · simp only [if_pos hd]
        rcases ihl best1 with h2 | h2
        · -- best2 = best1
          split
          · rw [h2]
            rcases hb1 with h | h
            · right; exact hmem _ (Or.inl h)
            · left; exact h
          · rcases ihr (l.findNeighbour q best1) with h3 | h3
            · rw [h3, h2]
              rcases hb1 with h | h
              · right; exact hmem _ (Or.inl h)
              · left; exact h
            · right; exact hmem _ (Or.inr (Or.inr h3))
        · split
          · right; exact hmem _ (Or.inr (Or.inl h2))
          · rcases ihr (l.findNeighbour q best1) with h3 | h3
            · rw [h3]; right; exact hmem _ (Or.inr (Or.inl h2))
            · right; exact hmem _ (Or.inr (Or.inr h3))
      · simp only [if_neg hd]
        rcases ihr best1 with h2 | h2
        · split
          · rw [h2]
            rcases hb1 with h | h
            · right; exact hmem _ (Or.inl h)
            · left; exact h
          · rcases ihl (r.findNeighbour q best1) with h3 | h3
            · rw [h3, h2]
              rcases hb1 with h | h
              · right; exact hmem _ (Or.inl h)
              · left; exact h
            · right; exact hmem _ (Or.inr (Or.inl h3))
        · split
          · right; exact hmem _ (Or.inr (Or.inr h2))
          · rcases ihl (r.findNeighbour q best1) with h3 | h3
            · rw [h3]; right; exact hmem _ (Or.inr (Or.inr h2))
            · right; exact hmem _ (Or.inr (Or.inl h3))

/-- C10: for a point whose x coordinate lies outside `[xmin, xmax]`,
`Rect::distance` is the smaller of the two x gaps and ignores the y
coordinate entirely; consequently, for every rectangle and every bound `M`
there is a point with y above `M` and x within `eps` of `xmin` (strictly
outside the band) that `Rect::contains` accepts. -/
theorem rect_distance_x_band :
    (∀ (r : Rect) (p : Point), ¬(r.xmin ≤ p.x ∧ p.x ≤ r.xmax) →
      r.distance p = min |p.x - r.xmin| |p.x - r.xmax| ∧
      ∀ y2 : ℚ, r.distance ⟨p.x, y2⟩ = r.distance p) ∧
    (∀ (r : Rect) (M : ℚ), ∃ p : Point,
      |p.x - r.xmin| < eps ∧ ¬(r.xmin ≤ p.x ∧ p.x ≤ r.xmax) ∧ M < p.y ∧
      r.contains p = true) := by
  constructor
  · intro r p h
    constructor
    · simp only [Rect.distance, if_neg h]
    · intro y2
      simp only [Rect.distance, if_neg h]
  · intro r M
    have hepos := eps_pos
    have hxlt : r.xmin - eps / 2 < r.xmin := by linarith
    have hout : ¬(r.xmin ≤ r.xmin - eps / 2 ∧ r.xmin - eps / 2 ≤ r.xmax) := by
      rintro ⟨h1, -⟩; linarith
    refine ⟨⟨r.xmin - eps / 2, M + 1⟩, ?_, hout, by linarith, ?_⟩
    · have hv : r.xmin - eps / 2 - r.xmin = -(eps / 2) := by ring
      rw [hv, abs_neg, abs_of_nonneg (by linarith : (0 : ℚ) ≤ eps / 2)]
      linarith
    · simp only [Rect.contains, decide_eq_true_eq]
      have hd : r.distance ⟨r.xmin - eps / 2, M + 1⟩ =
          min (eps / 2) |r.xmin - eps / 2 - r.xmax| := by
        show (if r.xmin ≤ r.xmin - eps / 2 ∧ r.xmin - eps / 2 ≤ r.xmax then _
          else min |r.xmin - eps / 2 - r.xmin| |r.xmin - eps / 2 - r.xmax|) = _
        rw [if_neg hout]
        have hv : r.xmin - eps / 2 - r.xmin = -(eps / 2) := by ring
        rw [hv, abs_neg, abs_of_nonneg (by linarith : (0 : ℚ) ≤ eps / 2)]
      rw [hd]
      have h1 : min (eps / 2) |r.xmin - eps / 2 - r.xmax| ≤ eps / 2 :=
        min_le_left _ _
      have h2 : 0 ≤ min (eps / 2) |r.xmin - eps / 2 - r.xmax| :=
        le_min (by linarith) (abs_nonneg _)
      rw [abs_of_nonneg h2]
      linarith

/-- Instantiation of `rect_distance_x_band` at the rectangle `[(0,0),(1,1)]`,
the outside point `(2, 5)` and the bound `100`. -/
theorem rect_distance_x_band_inst :
    (Rect.mk ⟨0, 0⟩ ⟨1, 1⟩).distance ⟨2, 5⟩ =
      min |(2 : ℚ) - (Rect.mk ⟨0, 0⟩ ⟨1, 1⟩).xmin|
        |(2 : ℚ) - (Rect.mk ⟨0, 0⟩ ⟨1, 1⟩).xmax| ∧
    ∃ p : Point, |p.x - (Rect.mk ⟨0, 0⟩ ⟨1, 1⟩).xmin| < eps ∧
      ¬((Rect.mk ⟨0, 0⟩ ⟨1, 1⟩).xmin ≤ p.x ∧
        p.x ≤ (Rect.mk ⟨0, 0⟩ ⟨1, 1⟩).xmax) ∧
      (100 : ℚ) < p.y ∧ (Rect.mk ⟨0, 0⟩ ⟨1, 1⟩).contains p = true :=
  ⟨(rect_distance_x_band.1 (Rect.mk ⟨0, 0⟩ ⟨1, 1⟩) ⟨2, 5⟩ (by decide)).1,
    rect_distance_x_band.2 (Rect.mk ⟨0, 0⟩ ⟨1, 1⟩) 100⟩

/-- C1 counterexample: on the empty set, `nearest` does not return a
disengaged optional - it dereferences the null `m_root`
(`Point closest_point(*m_root->m_point)`), modelled by `Except.error`. -/
theorem nearest_empty_faults : (fromList []).nearest ⟨0, 0⟩ = Except.error () :=
  rfl

/-- C1 (amended): the single-nearest-neighbour operation never produces an
absent optional: on an empty set it dereferences the null root (the error
case), and on a nonempty set it returns an engaged optional holding a stored
point. -/
theorem nearest_present_on_nonempty (s : PointSet) (q : Point) :
    (s.m_root = KdTree.nil → s.nearest q = Except.error ()) ∧
    (s.m_root ≠ KdTree.nil → ∃ p : Point, s.nearest q = Except.ok p) ∧
    (∀ p : Point, s.nearest q = Except.ok p → p ∈ s.m_root.inorder) := by
  cases hr : s.m_root with
  | nil =>
    refine ⟨fun _ => ?_, fun hne => absurd rfl hne, fun p hp => ?_⟩
    · simp [PointSet.nearest, hr]
    · simp [PointSet.nearest, hr] at hp
  | node pt dep l r =>
    refine ⟨fun h => KdTree.noConfusion h, fun _ => ?_, fun p hp => ?_⟩
    · exact ⟨(KdTree.node pt dep l r).findNeighbour q pt,
        by simp [PointSet.nearest, hr]⟩
    · have hp2 : (KdTree.node pt dep l r).findNeighbour q pt = p := by
        simp [PointSet.nearest, hr] at hp
        exact hp
      rcases findNeighbour_mem (KdTree.node pt dep l r) q pt with h | h
      · rw [← hp2, h]
        simp [KdTree.inorder]
      · rw [← hp2]
        exact h

/-- Instantiation of `nearest_present_on_nonempty` on the spec example set. -/
theorem nearest_present_on_nonempty_inst :
    (⟨1, 1⟩ : Point) ∈ baseSet.m_root.inorder :=
  (nearest_present_on_nonempty baseSet ⟨0, 0⟩).2.2 ⟨1, 1⟩ rfl

/-- C7: the in-order successor function `next` declares `bool isRight`
without an initializer; when the iterator stands on a root without a right
child the upward loop never runs and the uninitialized value is read.  When
that garbage reads `false`, `next` returns the root itself instead of the end
sentinel, so `++` never advances past the last element and iteration does not
terminate; only the lucky garbage value `true` yields the end sentinel the
in-order walk requires. -/
theorem next_uninitialized_flag_bug :
    nextAux false (fromList [⟨1, 2⟩]).m_root [] = some [] ∧
    nextAux true (fromList [⟨1, 2⟩]).m_root [] = none :=
  ⟨rfl, rfl⟩

/-- C2 counterexample: the stored point `(-3*eps/4, 1/4)` satisfies
`Rect::contains` for the rectangle `[(0,0),(1,1)]` (its distance `3*eps/4` is
below `eps`), yet `range` omits it: the root `(-eps/2, 1/2)` fails the exact
test `x >= xmin`, so the left subtree holding the matching point is pruned. -/
theorem range_misses_epsilon_boundary_point :
    cexRangeSet.range cexRangeRect = [cexRangeRoot] ∧
    cexRangeRect.contains cexRangeMissed = true ∧
    cexRangeMissed ∈ cexRangeSet.m_root.inorder ∧
    cexRangeMissed ∉ cexRangeSet.range cexRangeRect := by
  refine ⟨by decide, by decide, by decide, by decide⟩

/-- C8 counterexample: `cexDupB = (eps/2, 0)` is epsilon-equal to the stored
point `cexDupA = (-eps/4, 0)`, but their search paths separate at the root
`(0, 100)` (`cexDupA` goes left, `cexDupB` right), so the put inserts it and
`size` grows from 2 to 3.  The trailing conjuncts check that the concrete
trigger `rebuildCond` agrees with the exact condition
`max_depth > 2 * log(size)` at every state this run visits, so no rebuild
fires, exactly as in the C++ run. -/
theorem insert_duplicate_off_path_grows_size :
    cexDupS2.m_size = 2 ∧
    cexDupS2.contains cexDupA = true ∧
    Point.eq cexDupB cexDupA = true ∧
    (cexDupS2.put rebuildCond cexDupB).m_size = 3 ∧
    rebuildCond 0 1 = false ∧ rebuildCond 1 2 = false ∧ rebuildCond 1 3 = false ∧
    ¬ ((0 : ℝ) > 2 * Real.log 1) ∧ ¬ ((1 : ℝ) > 2 * Real.log 2) ∧
    ¬ ((1 : ℝ) > 2 * Real.log 3) := by
  refine ⟨by decide, by decide, by decide, by decide, by decide, by decide,
    by decide, ?_, ?_, ?_⟩
  · rw [two_log_one_eq_zero]; simp
  · have := one_le_two_log_two; linarith
  · have := two_le_two_log_three; linarith

/-- C4 counterexample: `cexP` is put (and absorbed by the epsilon-equal
stored point `cexQ` on its search path), `contains cexP` holds; three more
puts trip the rebuild trigger at `(max_depth, size) = (3, 4)`, the rebuilt
tree routes the search for `cexP` away from `cexQ`, and `contains cexP`
becomes false.  The trailing conjuncts check that the concrete trigger
`rebuildCond` agrees with the exact condition `max_depth > 2 * log(size)` at
every state this run visits, so the model run matches the C++ run. -/
theorem containment_lost_after_rebuild :
    cexS2.contains cexP = true ∧
    cexS5.contains cexP = false ∧
    cexS2.max_depth = 0 ∧ cexS2.m_size = 1 ∧
    cexS3.max_depth = 1 ∧ cexS3.m_size = 2 ∧
    cexS4.max_depth = 2 ∧ cexS4.m_size = 3 ∧
    (cexS4.putInsert cexM1).max_depth = 3 ∧
    (cexS4.putInsert cexM1).m_size = 4 ∧
    rebuildCond 0 1 = false ∧ rebuildCond 1 2 = false ∧
    rebuildCond 2 3 = false ∧ rebuildCond 3 4 = true ∧
    ¬ ((0 : ℝ) > 2 * Real.log 1) ∧ ¬ ((1 : ℝ) > 2 * Real.log 2) ∧
    ¬ ((2 : ℝ) > 2 * Real.log 3) ∧ ((3 : ℝ) > 2 * Real.log 4) := by
  refine ⟨by decide, by decide, by decide, by decide, by decide, by decide,
    by decide, by decide, by decide, by decide, by decide, by decide,
    by decide, by decide, ?_, ?_, ?_, ?_⟩
  · rw [two_log_one_eq_zero]; simp
  · have := one_le_two_log_two; linarith
  · have := two_le_two_log_three; linarith
  · have := two_log_four_lt_three; linarith

/-! Preservation of the kd invariant along insertions, builds and rebuilds. -/

lemma wf_node (pt : Point) (dep : Nat) (l r : KdTree) (d : Nat) :
    (KdTree.node pt dep l r).wf d = true ↔
      dep = d ∧ (∀ q ∈ l.inorder, axisC d q ≤ axisC d pt) ∧
      (∀ q ∈ r.inorder, axisC d pt < axisC d q) ∧
      l.wf (d + 1) = true ∧ r.wf (d + 1) = true := by
  simp [KdTree.wf, List.all_eq_true, Bool.and_eq_true, decide_eq_true_eq,
    and_assoc]

lemma insertAux_node (p pt : Point) (dep : Nat) (l r : KdTree) (d : Nat) :
    (KdTree.node pt dep l r).insertAux p d =
      if Point.eq pt p then (KdTree.node pt dep l r, false, d)
      else if axisC dep p ≤ axisC dep pt then
        (KdTree.node pt dep (l.insertAux p (d + 1)).1 r,
          (l.insertAux p (d + 1)).2.1, max d (l.insertAux p (d + 1)).2.2)
      else
        (KdTree.node pt dep l (r.insertAux p (d + 1)).1,
          (r.insertAux p (d + 1)).2.1, max d (r.insertAux p (d + 1)).2.2) :=
  rfl

lemma insertAux_spec (p : Point) (t : KdTree) (d : Nat) :
    ((t.insertAux p d).2.1 = false → (t.insertAux p d).1 = t) ∧
    ((t.insertAux p d).2.1 = true →
      (t.insertAux p d).1.inorder.length = t.inorder.length + 1) ∧
    (∀ x ∈ (t.insertAux p d).1.inorder, x ∈ t.inorder ∨ x = p) := by
  induction t generalizing d with
  | nil =>
    refine ⟨?_, ?_, ?_⟩
    · intro h
      simp [KdTree.insertAux] at h
    · intro _
      rfl
    · intro x hx
      simp [KdTree.insertAux, KdTree.inorder] at hx
      exact Or.inr hx
  | node pt dep l r ihl ihr =>
    rw [insertAux_node]
    by_cases heq : Point.eq pt p
    · simp only [if_pos heq]
      refine ⟨?_, ?_, fun x hx => Or.inl hx⟩
      · intro h
        first
        | rfl
        | trivial
      · intro h
        cases h
    · by_cases hax : axisC dep p ≤ axisC dep pt
      · simp only [if_neg heq, if_pos hax]
        obtain ⟨hf, ht, hm⟩ := ihl (d + 1)
        refine ⟨fun h => by rw [hf h], fun h => ?_, fun x hx => ?_⟩
        · simp only [KdTree.inorder, List.length_append, List.length_cons,
            ht h]
          omega
        · simp only [KdTree.inorder, List.mem_append, List.mem_cons] at hx ⊢
          rcases hx with hx | hx | hx
          · rcases hm x hx with h | h
            · exact Or.inl (Or.inl h)
            · exact Or.inr h
          · exact Or.inl (Or.inr (Or.inl hx))
          · exact Or.inl (Or.inr (Or.inr hx))
      · simp only [if_neg heq, if_neg hax]
        obtain ⟨hf, ht, hm⟩ := ihr (d + 1)
        refine ⟨fun h => by rw [hf h], fun h => ?_, fun x hx => ?_⟩
        · simp only [KdTree.inorder, List.length_append, List.length_cons,
            ht h]
          omega
        · simp only [KdTree.inorder, List.mem_append, List.mem_cons] at hx ⊢
          rcases hx with hx | hx | hx
          · exact Or.inl (Or.inl hx)
          · exact Or.inl (Or.inr (Or.inl hx))
          · rcases hm x hx with h | h
            · exact Or.inl (Or.inr (Or.inr h))
            · exact Or.inr h

lemma insertAux_wf (p : Point) (t : KdTree) (d : Nat) (h : t.wf d = true) :
    (t.insertAux p d).1.wf d = true := by
  induction t generalizing d with
  | nil =>
    simp [KdTree.insertAux, wf_node, KdTree.inorder, KdTree.wf]
  | node pt dep l r ihl ihr =>
    rw [wf_node] at h
    obtain ⟨hdep, hbl, hbr, hwl, hwr⟩ := h
    rw [insertAux_node]
    by_cases heq : Point.eq pt p
    · simp only [if_pos heq]
      rw [wf_node]
      exact ⟨hdep, hbl, hbr, hwl, hwr⟩
    · by_cases hax : axisC dep p ≤ axisC dep pt
      · simp only [if_neg heq, if_pos hax]
        rw [wf_node]
        refine ⟨hdep, fun q hq => ?_, hbr, ihl (d + 1) hwl, hwr⟩
        rcases (insertAux_spec p l (d + 1)).2.2 q hq with hmem | hqp
        · exact hbl q hmem
        · rw [hqp, ← hdep]
          exact hax
      · simp only [if_neg heq, if_neg hax]
        rw [wf_node]
        refine ⟨hdep, hbl, fun q hq => ?_, hwl, ihr (d + 1) hwr⟩
        rcases (insertAux_spec p r (d + 1)).2.2 q hq with hmem | hqp
        · exact hbr q hmem
        · rw [hqp, ← hdep]
          exact lt_of_not_le hax

lemma dle_mono (t : KdTree) (b c : Nat) (h : t.dle b = true) (hbc : b ≤ c) :
    t.dle c = true := by
  induction t with
  | nil => rfl
  | node pt dep l r ihl ihr =>
    simp only [KdTree.dle, Bool.and_eq_true, decide_eq_true_eq] at h ⊢
    exact ⟨⟨Nat.le_trans h.1.1 hbc, ihl h.1.2⟩, ihr h.2⟩

lemma insertAux_dle (p : Point) (t : KdTree) (b d : Nat) (h : t.dle b = true) :
    (t.insertAux p d).1.dle (max b (t.insertAux p d).2.2) = true := by
  induction t generalizing b d with
  | nil =>
    simp [KdTree.insertAux, KdTree.dle]
  | node pt dep l r ihl ihr =>
    simp only [KdTree.dle, Bool.and_eq_true, decide_eq_true_eq] at h
    obtain ⟨⟨hdep, hl⟩, hr⟩ := h
    rw [insertAux_node]
    by_cases heq : Point.eq pt p
    · simp only [if_pos heq]
      exact dle_mono _ _ _ (by
        simp only [KdTree.dle, Bool.and_eq_true, decide_eq_true_eq]
        exact ⟨⟨hdep, hl⟩, hr⟩) (Nat.le_max_left _ _)
    · by_cases hax : axisC dep p ≤ axisC dep pt
      · simp only [if_pos hax, if_neg heq]
        simp only [KdTree.dle, Bool.and_eq_true, decide_eq_true_eq]
        refine ⟨⟨Nat.le_trans hdep (Nat.le_max_left _ _), ?_⟩,
          dle_mono _ _ _ hr (Nat.le_max_left _ _)⟩
        refine dle_mono _ _ _ (ihl b (d + 1) hl) ?_
        have := Nat.le_max_right d (l.insertAux p (d + 1)).2.2
        omega
      · simp only [if_neg hax, if_neg heq]
        simp only [KdTree.dle, Bool.and_eq_true, decide_eq_true_eq]
        refine ⟨⟨Nat.le_trans hdep (Nat.le_max_left _ _),
          dle_mono _ _ _ hl (Nat.le_max_left _ _)⟩, ?_⟩
        refine dle_mono _ _ _ (ihr b (d + 1) hr) ?_
        have := Nat.le_max_right d (r.insertAux p (d + 1)).2.2
        omega

lemma putInsert_good (p : Point) (s : PointSet) (h : Good s) :
    Good (s.putInsert p) := by
  obtain ⟨hwf, hdle, hsz⟩ := h
  refine ⟨insertAux_wf p s.m_root 0 hwf, insertAux_dle p s.m_root _ 0 hdle, ?_⟩
  show s.m_size + (if (s.m_root.insertAux p 0).2.1 then 1 else 0) =
    (s.m_root.insertAux p 0).1.inorder.length
  obtain ⟨hf, ht, -⟩ := insertAux_spec p s.m_root 0
  cases hb : (s.m_root.insertAux p 0).2.1 with
  | false => rw [hf hb, if_neg (by simp)]; omega
  | true => rw [ht hb, if_pos rfl]; omega

lemma good_emptySet : Good PointSet.emptySet := ⟨rfl, rfl, rfl⟩

lemma buildTreeList_good (fuel : Nat) :
    ∀ (s : PointSet) (pts : List Point) (a b d : Nat), Good s →
      Good (buildTreeList fuel s pts a b d).1 := by
  induction fuel with
  | zero => intro s pts a b d h; exact h
  | succ n ih =>
    intro s pts a b d h
    rw [buildTreeList]
    by_cases hab : b ≤ a
    · rw [if_pos hab]; exact h
    · rw [if_neg hab]
      exact ih _ _ _ _ _ (ih _ _ _ _ _ (putInsert_good _ _ h))

lemma reBuild_good (cond : Nat → Nat → Bool) (s : PointSet) (h : Good s) :
    Good (s.reBuild cond) := by
  unfold PointSet.reBuild
  split
  · exact buildTreeList_good _ _ _ _ _ _ good_emptySet
  · exact h

lemma reachable_good (s : PointSet) (h : Reachable s) : Good s := by
  induction h with
  | bulk pts => exact buildTreeList_good _ _ _ _ _ _ good_emptySet
  | putStep cond p hs ih => exact reBuild_good _ _ (putInsert_good _ _ ih)

/-- C6: every tree reachable by bulk builds and puts satisfies the split
invariant: at every node of depth `d`, each point of the left subtree is at
most the node on the depth-`d` splitting coordinate (x when `d` is even, y
when odd) and each point of the right subtree is strictly greater (`wf` also
checks that the stored depths agree with the structural ones, which makes the
statement about "depth d" exact). -/
theorem reachable_split_invariant (s : PointSet) (h : Reachable s) :
    s.m_root.wf 0 = true :=
  (reachable_good s h).1

/-- Instantiation of `reachable_split_invariant` on the bulk-built spec
example set. -/
theorem reachable_split_invariant_inst : baseSet.m_root.wf 0 = true :=
  reachable_split_invariant baseSet (Reachable.bulk _)

/-! Soundness and in-box completeness of the pruned range collection. -/

lemma inBox_contains (rect : Rect) (x : Point) (h : rect.inBox x = true) :
    rect.contains x = true := by
  simp only [Rect.inBox, Bool.and_eq_true, decide_eq_true_eq] at h
  obtain ⟨⟨⟨h1, h2⟩, h3⟩, h4⟩ := h
  simp only [Rect.contains, Rect.distance, if_pos (And.intro h1 h2),
    if_pos (And.intro h3 h4), decide_eq_true_eq]
  simpa using eps_pos

lemma mem_ite_both {α : Type} (P : Prop) [Decidable P] (a b : List α) (x : α)
    (h1 : x ∈ a) (h2 : x ∈ b) : x ∈ (if P then a else b) := by
  split
  · exact h1
  · exact h2

lemma mem_ite_elim {α : Type} (P : Prop) [Decidable P] (a b : List α) (x : α)
    (h : x ∈ (if P then a else b)) : x ∈ a ∨ x ∈ b := by
  split at h
  · exact Or.inl h
  · exact Or.inr h

lemma fpir_mono (rect : Rect) (t : KdTree) :
    ∀ (acc : List Point) (x : Point), x ∈ acc →
      x ∈ t.findPointsInRectangle rect acc := by
  induction t with
  | nil => exact fun acc x h => h
  | node pt dep l r ihl ihr =>
    intro acc x hx
    simp only [KdTree.findPointsInRectangle]
    have h1 : x ∈ (if rect.contains pt then acc ++ [pt] else acc) :=
      mem_ite_both _ _ _ _ (List.mem_append_left _ hx) hx
    have h2 : x ∈ (if (if dep % 2 = 0 then rect.xmin ≤ pt.x
        else rect.ymin ≤ pt.y) then
          l.findPointsInRectangle rect
            (if rect.contains pt then acc ++ [pt] else acc)
        else (if rect.contains pt then acc ++ [pt] else acc)) :=
      mem_ite_both _ _ _ _ (ihl _ _ h1) h1
    exact mem_ite_both _ _ _ _ (ihr _ _ h2) h2

lemma fpir_sound (rect : Rect) (t : KdTree) :
    ∀ (acc : List Point) (x : Point), x ∈ t.findPointsInRectangle rect acc →
      x ∈ acc ∨ (x ∈ t.inorder ∧ rect.contains x = true) := by
  induction t with
  | nil => exact fun acc x h => Or.inl h
  | node pt dep l r ihl ihr =>
    intro acc x hx
    simp only [KdTree.findPointsInRectangle] at hx
    have hmem : ∀ y : Point, y ∈ l.inorder ∨ y = pt ∨ y ∈ r.inorder →
        y ∈ (KdTree.node pt dep l r).inorder := by
      intro y hy
      simp only [KdTree.inorder, List.mem_append, List.mem_cons]
      tauto
    have step0 : x ∈ (if rect.contains pt then acc ++ [pt] else acc) →
        x ∈ acc ∨ (x ∈ (KdTree.node pt dep l r).inorder ∧
          rect.contains x = true) := by
      intro h1
      by_cases hc : rect.contains pt = true
      · rw [if_pos hc] at h1
        rcases List.mem_append.1 h1 with h | h
        · exact Or.inl h
        · have hxpt : x = pt := by simpa using h
          exact Or.inr ⟨hmem x (Or.inr (Or.inl hxpt)), by rw [hxpt]; exact hc⟩
      · rw [if_neg hc] at h1
        exact Or.inl h1
    have step1 : x ∈ (if (if dep % 2 = 0 then rect.xmin ≤ pt.x
        else rect.ymin ≤ pt.y) then
          l.findPointsInRectangle rect
            (if rect.contains pt then acc ++ [pt] else acc)
        else (if rect.contains pt then acc ++ [pt] else acc)) →
        x ∈ acc ∨ (x ∈ (KdTree.node pt dep l r).inorder ∧
          rect.contains x = true) := by
      intro h2
      rcases mem_ite_elim _ _ _ _ h2 with h | h
      · rcases ihl _ _ h with h3 | h3
        · exact step0 h3
        · exact Or.inr ⟨hmem x (Or.inl h3.1), h3.2⟩
      · exact step0 h
    rcases mem_ite_elim _ _ _ _ hx with h | h
    · rcases ihr _ _ h with h3 | h3
      · exact step1 h3
      · exact Or.inr ⟨hmem x (Or.inr (Or.inr h3.1)), h3.2⟩
    · exact step1 h

lemma fpir_complete (rect : Rect) (t : KdTree) :
    ∀ (d : Nat) (acc : List Point) (x : Point), t.wf d = true →
      x ∈ t.inorder → rect.inBox x = true →
      x ∈ t.findPointsInRectangle rect acc := by
  induction t with
  | nil => intro d acc x _ hx; exact absurd hx (by simp [KdTree.inorder])
  | node pt dep l r ihl ihr =>
    intro d acc x hwf hx hbox
    rw [wf_node] at hwf
    obtain ⟨hdep, hbl, hbr, hwl, hwr⟩ := hwf
    subst hdep
    have hb := hbox
    simp only [Rect.inBox, Bool.and_eq_true, decide_eq_true_eq] at hb
    obtain ⟨⟨⟨hx1, hx2⟩, hy1⟩, hy2⟩ := hb
    simp only [KdTree.inorder, List.mem_append, List.mem_cons] at hx
    simp only [KdTree.findPointsInRectangle]
    rcases hx with hx | hx | hx
    · -- x in the left subtree: the left guard cannot prune it
      have h1 := hbl x hx
      have hgl : (if dep % 2 = 0 then rect.xmin ≤ pt.x
          else rect.ymin ≤ pt.y) := by
        unfold axisC at h1
        by_cases hm : dep % 2 = 0
        · simp only [if_pos hm] at h1 ⊢
          linarith
        · simp only [if_neg hm] at h1 ⊢
          linarith
      rw [if_pos hgl]
      have hin : x ∈ l.findPointsInRectangle rect
          (if rect.contains pt then acc ++ [pt] else acc) :=
        ihl (dep + 1) _ x hwl hx hbox
      exact mem_ite_both _ _ _ _ (fpir_mono rect r _ x hin) hin
    · -- x is the node point
      have hc : rect.contains x = true := inBox_contains rect x hbox
      have h1 : x ∈ (if rect.contains pt then acc ++ [pt] else acc) := by
        rw [hx, if_pos (by rw [← hx]; exact hc)]
        simp
      have h2 : x ∈ (if (if dep % 2 = 0 then rect.xmin ≤ pt.x
          else rect.ymin ≤ pt.y) then
            l.findPointsInRectangle rect
              (if rect.contains pt then acc ++ [pt] else acc)
          else (if rect.contains pt then acc ++ [pt] else acc)) :=
        mem_ite_both _ _ _ _ (fpir_mono rect l _ x h1) h1
      exact mem_ite_both _ _ _ _ (fpir_mono rect r _ x h2) h2
    · -- x in the right subtree: the right guard cannot prune it
      have h1 := hbr x hx
      have hgr : (if dep % 2 = 0 then pt.x ≤ rect.xmax
          else pt.y ≤ rect.ymax) := by
        unfold axisC at h1
        by_cases hm : dep % 2 = 0
        · simp only [if_pos hm] at h1 ⊢
          linarith
        · simp only [if_neg hm] at h1 ⊢
          linarith
      rw [if_pos hgr]
      exact ihr (dep + 1) _ x hwr hx hbox

/-- C2 (amended): on every reachable point set, `range` returns only stored
points accepted by `Rect::contains`, and it returns every stored point lying
inside the closed rectangle; a stored point that satisfies `contains` only
through the epsilon slack (with a coordinate strictly outside the box) can be
omitted by the exact-bound pruning, see
`range_misses_epsilon_boundary_point`. -/
theorem range_sound_and_box_complete (s : PointSet) (rect : Rect)
    (h : Reachable s) :
    (∀ x ∈ s.range rect, x ∈ s.m_root.inorder ∧ rect.contains x = true) ∧
    (∀ x ∈ s.m_root.inorder, rect.inBox x = true → x ∈ s.range rect) := by
  have hwf := (reachable_good s h).1
  constructor
  · intro x hx
    rcases fpir_sound rect s.m_root [] x hx with h | h
    · exact absurd h (by simp)
    · exact h
  · intro x hx hbox
    exact fpir_complete rect s.m_root 0 [] x hwf hx hbox

/-- Instantiation of `range_sound_and_box_complete` on the spec running
example (set `{(1,1),(2,2),(3,3)}`, rectangle `[(0,0),(2,2)]`). -/
theorem range_sound_and_box_complete_inst :
    (∀ x ∈ baseSet.range (Rect.mk ⟨0, 0⟩ ⟨2, 2⟩),
      x ∈ baseSet.m_root.inorder ∧ (Rect.mk ⟨0, 0⟩ ⟨2, 2⟩).contains x = true) ∧
    (∀ x ∈ baseSet.m_root.inorder, (Rect.mk ⟨0, 0⟩ ⟨2, 2⟩).inBox x = true →
      x ∈ baseSet.range (Rect.mk ⟨0, 0⟩ ⟨2, 2⟩)) :=
  range_sound_and_box_complete baseSet (Rect.mk ⟨0, 0⟩ ⟨2, 2⟩)
    (Reachable.bulk _)

/-! Minimality of the pruned nearest-neighbour search. -/

lemma findNeighbour_node (q pt : Point) (dep : Nat) (l r : KdTree) (b : Point) :
    (KdTree.node pt dep l r).findNeighbour q b =
      if Point.distSq pt q = 0 then
        (if Point.distSq pt q < Point.distSq q b then pt else b)
      else if 0 < axisC dep pt - axisC dep q then
        (if Point.distSq q (l.findNeighbour q
              (if Point.distSq pt q < Point.distSq q b then pt else b)) ≤
            (axisC dep pt - axisC dep q) * (axisC dep pt - axisC dep q) then
          l.findNeighbour q
            (if Point.distSq pt q < Point.distSq q b then pt else b)
        else r.findNeighbour q (l.findNeighbour q
          (if Point.distSq pt q < Point.distSq q b then pt else b)))
      else
        (if Point.distSq q (r.findNeighbour q
              (if Point.distSq pt q < Point.distSq q b then pt else b)) ≤
            (axisC dep pt - axisC dep q) * (axisC dep pt - axisC dep q) then
          r.findNeighbour q
            (if Point.distSq pt q < Point.distSq q b then pt else b)
        else l.findNeighbour q (r.findNeighbour q
          (if Point.distSq pt q < Point.distSq q b then pt else b))) :=
  rfl

lemma findNeighbour_min (q : Point) (t : KdTree) :
    ∀ (d : Nat) (b : Point), t.wf d = true →
      Point.distSq q (t.findNeighbour q b) ≤ Point.distSq q b ∧
      (∀ p ∈ t.inorder,
        Point.distSq q (t.findNeighbour q b) ≤ Point.distSq q p) := by
  induction t with
  | nil =>
    intro d b _
    exact ⟨le_refl _, fun p hp => absurd hp (by simp [KdTree.inorder])⟩
  | node pt dep l r ihl ihr =>
    intro d b hwf
    rw [wf_node] at hwf
    obtain ⟨hdep, hbl, hbr, hwl, hwr⟩ := hwf
    subst hdep
    have hb1 :
        Point.distSq q (if Point.distSq pt q < Point.distSq q b then pt else b)
          ≤ Point.distSq q b ∧
        Point.distSq q (if Point.distSq pt q < Point.distSq q b then pt else b)
          ≤ Point.distSq q pt := by
      by_cases h : Point.distSq pt q < Point.distSq q b
      · rw [if_pos h]
        constructor
        · rw [distSq_comm]
          exact le_of_lt h
        · exact le_refl _
      · rw [if_neg h]
        constructor
        · exact le_refl _
        · rw [distSq_comm q pt]
          exact le_of_not_lt h
    rw [findNeighbour_node]
    by_cases hz : Point.distSq pt q = 0
    · rw [if_pos hz]
      refine ⟨hb1.1, fun p hp => ?_⟩
      have hqpt : Point.distSq q pt = 0 := by
        rw [distSq_comm]
        exact hz
      calc Point.distSq q
            (if Point.distSq pt q < Point.distSq q b then pt else b)
          ≤ Point.distSq q pt := hb1.2
        _ = 0 := hqpt
        _ ≤ Point.distSq q p := distSq_nonneg q p
    · rw [if_neg hz]
      by_cases hdpos : 0 < axisC dep pt - axisC dep q
      · rw [if_pos hdpos]
        obtain ⟨h2le, h2min⟩ := ihl (dep + 1)
          (if Point.distSq pt q < Point.distSq q b then pt else b) hwl
        by_cases hprune : Point.distSq q (l.findNeighbour q
              (if Point.distSq pt q < Point.distSq q b then pt else b)) ≤
            (axisC dep pt - axisC dep q) * (axisC dep pt - axisC dep q)
        · rw [if_pos hprune]
          refine ⟨le_trans h2le hb1.1, fun p hp => ?_⟩
          simp only [KdTree.inorder, List.mem_append, List.mem_cons] at hp
          rcases hp with hp | hp | hp
          · exact h2min p hp
          · rw [hp]
            exact le_trans h2le hb1.2
          · have hax := hbr p hp
            have hgeo := distSq_ge_axis dep q p
            have hsq : (axisC dep pt - axisC dep q) *
                (axisC dep pt - axisC dep q) ≤
                (axisC dep p - axisC dep q) * (axisC dep p - axisC dep q) := by
              nlinarith
            linarith
        · rw [if_neg hprune]
          obtain ⟨h3le, h3min⟩ := ihr (dep + 1) (l.findNeighbour q
            (if Point.distSq pt q < Point.distSq q b then pt else b)) hwr
          refine ⟨le_trans h3le (le_trans h2le hb1.1), fun p hp => ?_⟩
          simp only [KdTree.inorder, List.mem_append, List.mem_cons] at hp
          rcases hp with hp | hp | hp
          · exact le_trans h3le (h2min p hp)
          · rw [hp]
            exact le_trans h3le (le_trans h2le hb1.2)
          · exact h3min p hp
      · rw [if_neg hdpos]
        have hdle : axisC dep pt - axisC dep q ≤ 0 := le_of_not_lt hdpos
        obtain ⟨h2le, h2min⟩ := ihr (dep + 1)
          (if Point.distSq pt q < Point.distSq q b then pt else b) hwr
        by_cases hprune : Point.distSq q (r.findNeighbour q
              (if Point.distSq pt q < Point.distSq q b then pt else b)) ≤
            (axisC dep pt - axisC dep q) * (axisC dep pt - axisC dep q)
        · rw [if_pos hprune]
          refine ⟨le_trans h2le hb1.1, fun p hp => ?_⟩
          simp only [KdTree.inorder, List.mem_append, List.mem_cons] at hp
          rcases hp with hp | hp | hp
          · have hax := hbl p hp
            have hgeo := distSq_ge_axis dep q p
            have hsq : (axisC dep pt - axisC dep q) *
                (axisC dep pt - axisC dep q) ≤
                (axisC dep p - axisC dep q) * (axisC dep p - axisC dep q) := by
              nlinarith
            linarith
          · rw [hp]
            exact le_trans h2le hb1.2
          · exact h2min p hp
        · rw [if_neg hprune]
          obtain ⟨h3le, h3min⟩ := ihl (dep + 1) (r.findNeighbour q
            (if Point.distSq pt q < Point.distSq q b then pt else b)) hwl
          refine ⟨le_trans h3le (le_trans h2le hb1.1), fun p hp => ?_⟩
          simp only [KdTree.inorder, List.mem_append, List.mem_cons] at hp
          rcases hp with hp | hp | hp
          · exact h3min p hp
          · rw [hp]
            exact le_trans h3le (le_trans h2le hb1.2)
          · exact le_trans h3le (h2min p hp)

/-- C3: on every reachable point set, whenever `nearest(q)` returns a point,
that point is stored and no stored point is strictly closer to `q`
(distances compared through their squares, see the header comment). -/
theorem nearest_is_minimal (s : PointSet) (q p : Point) (hr : Reachable s)
    (hp : s.nearest q = Except.ok p) :
    p ∈ s.m_root.inorder ∧
    ∀ x ∈ s.m_root.inorder, Point.distSq q p ≤ Point.distSq q x := by
  have hwf := (reachable_good s hr).1
  cases hroot : s.m_root with
  | nil => simp [PointSet.nearest, hroot] at hp
  | node pt dep l r =>
    have hp2 : (KdTree.node pt dep l r).findNeighbour q pt = p := by
      simp [PointSet.nearest, hroot] at hp
      exact hp
    rw [hroot] at hwf
    have hmem : p ∈ (KdTree.node pt dep l r).inorder := by
      rcases findNeighbour_mem (KdTree.node pt dep l r) q pt with h | h
      · rw [← hp2, h]
        simp [KdTree.inorder]
      · rw [← hp2]
        exact h
    have hmin := (findNeighbour_min q (KdTree.node pt dep l r) 0 pt hwf).2
    rw [hp2] at hmin
    exact ⟨hmem, hmin⟩

/-- Instantiation of `nearest_is_minimal` on the spec running example:
`nearest((0,0))` on `{(1,1),(2,2),(3,3)}` returns `(1,1)`. -/
theorem nearest_is_minimal_inst :
    (⟨1, 1⟩ : Point) ∈ baseSet.m_root.inorder ∧
    ∀ x ∈ baseSet.m_root.inorder,
      Point.distSq ⟨0, 0⟩ ⟨1, 1⟩ ≤ Point.distSq ⟨0, 0⟩ x :=
  nearest_is_minimal baseSet ⟨0, 0⟩ ⟨1, 1⟩ (Reachable.bulk _) rfl

/-! The bounded selection loop of `nearest(p, k)`. -/

lemma dmax_nonneg (q : Point) : ∀ l : List Point, 0 ≤ dmax q l := by
  intro l
  induction l with
  | nil => exact le_refl _
  | cons y ys ih => exact le_trans ih (le_max_right _ _)

lemma dmax_ge (q : Point) : ∀ (l : List Point) (p : Point), p ∈ l →
    Point.distSq q p ≤ dmax q l := by
  intro l
  induction l with
  | nil => intro p hp; cases hp
  | cons y ys ih =>
    intro p hp
    rcases List.mem_cons.1 hp with h | h
    · rw [h]
      exact le_max_left _ _
    · exact le_trans (ih p h) (le_max_right _ _)

lemma dmax_le (q : Point) (c : ℚ) (hc : 0 ≤ c) : ∀ l : List Point,
    (∀ p ∈ l, Point.distSq q p ≤ c) → dmax q l ≤ c := by
  intro l
  induction l with
  | nil => intro _; exact hc
  | cons y ys ih =>
    intro h
    exact max_le (h y (List.mem_cons_self _ _))
      (ih fun p hp => h p (List.mem_cons_of_mem _ hp))

lemma replaceLastMax_length (q x : Point) : ∀ l : List Point,
    (replaceLastMax q x l).length = l.length := by
  intro l
  induction l with
  | nil => rfl
  | cons y ys ih =>
    simp only [replaceLastMax]
    split
    · simp [ih]
    · simp

lemma replaceLastMax_mem (q x : Point) : ∀ (l : List Point) (p : Point),
    p ∈ replaceLastMax q x l → p ∈ l ∨ p = x := by
  intro l
  induction l with
  | nil => intro p hp; cases hp
  | cons y ys ih =>
    intro p hp
    simp only [replaceLastMax] at hp
    split at hp
    · rcases List.mem_cons.1 hp with h | h
      · exact Or.inl (by rw [h]; exact List.mem_cons_self _ _)
      · rcases ih p h with h2 | h2
        · exact Or.inl (List.mem_cons_of_mem _ h2)
        · exact Or.inr h2
    · rcases List.mem_cons.1 hp with h | h
      · exact Or.inr h
      · exact Or.inl (List.mem_cons_of_mem _ h)

lemma mem_replaceLastMax_self (q x : Point) : ∀ l : List Point, l ≠ [] →
    x ∈ replaceLastMax q x l := by
  intro l
  induction l with
  | nil => intro h; exact absurd rfl h
  | cons y ys ih =>
    intro _
    simp only [replaceLastMax]
    split
    · rename_i hcond
      exact List.mem_cons_of_mem _ (ih hcond.1)
    · exact List.mem_cons_self _ _

lemma mem_replaceLastMax_of_mem (q x : Point) : ∀ (l : List Point) (p : Point),
    p ∈ l → p ∈ replaceLastMax q x l ∨ Point.distSq q p = dmax q l := by
  intro l
  induction l with
  | nil => intro p hp; cases hp
  | cons y ys ih =>
    intro p hp
    simp only [replaceLastMax]
    split
    · rename_i hcond
      rcases List.mem_cons.1 hp with h | h
      · exact Or.inl (by rw [h]; exact List.mem_cons_self _ _)
      · rcases ih p h with h2 | h2
        · exact Or.inl (List.mem_cons_of_mem _ h2)
        · refine Or.inr ?_
          rw [h2]
          simp only [dmax]
          exact (max_eq_right hcond.2).symm
    · rename_i hcond
      push_neg at hcond
      rcases List.mem_cons.1 hp with h | h
      · refine Or.inr ?_
        rw [h]
        simp only [dmax]
        by_cases hys : ys = []
        · rw [hys]
          simp only [dmax]
          exact (max_eq_left (distSq_nonneg q y)).symm
        · have hlt := hcond hys
          exact (max_eq_left (le_of_lt hlt)).symm
      · exact Or.inl (List.mem_cons_of_mem _ h)

lemma dmax_replaceLastMax_le (q x : Point) (l : List Point)
    (hx : Point.distSq q x < dmax q l) :
    dmax q (replaceLastMax q x l) ≤ dmax q l := by
  refine dmax_le q _ (dmax_nonneg q l) _ (fun p hp => ?_)
  rcases replaceLastMax_mem q x l p hp with h | h
  · exact dmax_ge q l p h
  · rw [h]
    exact le_of_lt hx

lemma knnFold_inv (q : Point) (k : Nat) (hk : 0 < k) :
    ∀ (pts buf seen : List Point),
      buf.length = min seen.length k →
      (buf.length < k → buf = seen) →
      (∀ p ∈ buf, p ∈ seen) →
      (∀ p ∈ seen, p ∈ buf ∨ dmax q buf ≤ Point.distSq q p) →
      (pts.foldl (knnStep q k) buf).length = min (seen ++ pts).length k ∧
      (∀ p ∈ pts.foldl (knnStep q k) buf, p ∈ seen ++ pts) ∧
      (∀ p ∈ seen ++ pts, p ∈ pts.foldl (knnStep q k) buf ∨
        dmax q (pts.foldl (knnStep q k) buf) ≤ Point.distSq q p) := by
  intro pts
  induction pts with
  | nil =>
    intro buf seen h1 _ h3 h4
    simp only [List.foldl_nil, List.append_nil]
    exact ⟨h1, h3, h4⟩
  | cons x pts ih =>
    intro buf seen h1 h2 h3 h4
    have hstep :
        (knnStep q k buf x).length = min (seen ++ [x]).length k ∧
        ((knnStep q k buf x).length < k → knnStep q k buf x = seen ++ [x]) ∧
        (∀ p ∈ knnStep q k buf x, p ∈ seen ++ [x]) ∧
        (∀ p ∈ seen ++ [x], p ∈ knnStep q k buf x ∨
          dmax q (knnStep q k buf x) ≤ Point.distSq q p) := by
      by_cases hfill : buf.length < k
      · have hbs : buf = seen := h2 hfill
        simp only [knnStep, if_pos hfill]
        subst hbs
        refine ⟨?_, ?_, ?_, ?_⟩
        · simp only [List.length_append, List.length_singleton]
          omega
        · intro _
          rfl
        · intro p hp
          exact hp
        · intro p hp
          exact Or.inl hp
      · have hlen : buf.length = k := by
          have := h1
          omega
        simp only [knnStep, if_neg hfill]
        have hbufne : buf ≠ [] := by
          intro hb
          rw [hb] at hlen
          simp at hlen
          omega
        by_cases hrep : Point.distSq q x < dmax q buf
        · rw [if_pos hrep]
          refine ⟨?_, ?_, ?_, ?_⟩
          · rw [replaceLastMax_length, hlen]
            simp only [List.length_append, List.length_singleton]
            omega
          · intro hc
            rw [replaceLastMax_length, hlen] at hc
            omega
          · intro p hp
            rcases replaceLastMax_mem q x buf p hp with h | h
            · exact List.mem_append_left _ (h3 p h)
            · rw [h]
              exact List.mem_append_right _ (List.mem_singleton_self _)
          · intro p hp
            rcases List.mem_append.1 hp with h | h
            · rcases h4 p h with h5 | h5
              · rcases mem_replaceLastMax_of_mem q x buf p h5 with h6 | h6
                · exact Or.inl h6
                · refine Or.inr ?_
                  rw [h6]
                  exact dmax_replaceLastMax_le q x buf hrep
              · exact Or.inr
                  (le_trans (dmax_replaceLastMax_le q x buf hrep) h5)
            · have hpx : p = x := by simpa using h
              rw [hpx]
              exact Or.inl (mem_replaceLastMax_self q x buf hbufne)
        · rw [if_neg hrep]
          refine ⟨?_, ?_, ?_, ?_⟩
          · rw [hlen]
            simp only [List.length_append, List.length_singleton]
            omega
          · intro hc
            rw [hlen] at hc
            omega
          · intro p hp
            exact List.mem_append_left _ (h3 p hp)
          · intro p hp
            rcases List.mem_append.1 hp with h | h
            · rcases h4 p h with h5 | h5
              · exact Or.inl h5
              · exact Or.inr h5
            · have hpx : p = x := by simpa using h
              rw [hpx]
              exact Or.inr (le_of_not_lt hrep)
    obtain ⟨g1, g2, g3, g4⟩ := hstep
    have hres := ih (knnStep q k buf x) (seen ++ [x]) g1 g2 g3 g4
    simp only [List.foldl_cons]
    have hassoc : (seen ++ [x]) ++ pts = seen ++ x :: pts := by
      simp
    rw [hassoc] at hres
    exact hres

/-- C9: on every reachable point set, `nearest(q, k)` returns exactly
`min k size` stored points; `k = 0` yields the empty range; `k >= size`
yields the full in-order traversal; and no non-returned stored point is
strictly closer to `q` than any returned point (in particular than the
farthest returned one). -/
theorem knn_bounded_selection (s : PointSet) (q : Point) (k : Nat)
    (hr : Reachable s) :
    (s.nearestK q k).length = min k s.m_size ∧
    (s.m_size ≤ k → s.nearestK q k = s.m_root.inorder) ∧
    (k = 0 → s.nearestK q k = []) ∧
    (∀ x ∈ s.nearestK q k, x ∈ s.m_root.inorder) ∧
    (∀ p ∈ s.m_root.inorder, p ∉ s.nearestK q k →
      ∀ x ∈ s.nearestK q k, Point.distSq q x ≤ Point.distSq q p) := by
  have hsz := (reachable_good s hr).2.2
  by_cases h1 : s.m_size ≤ k
  · have heq : s.nearestK q k = s.m_root.inorder := by
      simp only [PointSet.nearestK, if_pos h1]
    refine ⟨?_, fun _ => heq, ?_, ?_, ?_⟩
    · rw [heq, ← hsz]
      omega
    · intro hk0
      rw [heq]
      have : s.m_root.inorder.length = 0 := by omega
      exact List.eq_nil_of_length_eq_zero this
    · intro x hx
      rw [heq] at hx
      exact hx
    · intro p hp hnp
      rw [heq] at hnp
      exact absurd hp hnp
  · by_cases hk0 : k = 0
    · have heq : s.nearestK q k = [] := by
        simp only [PointSet.nearestK, if_neg h1, if_pos hk0]
      refine ⟨?_, fun h => absurd h h1, fun _ => heq, ?_, ?_⟩
      · rw [heq, hk0]
        simp
      · intro x hx
        rw [heq] at hx
        cases hx
      · intro p hp hnp x hx
        rw [heq] at hx
        cases hx
    · have hk : 0 < k := Nat.pos_of_ne_zero hk0
      have heq : s.nearestK q k =
          s.m_root.inorder.foldl (knnStep q k) [] := by
        simp only [PointSet.nearestK, if_neg h1, if_neg hk0]
      obtain ⟨g1, g3, g4⟩ := knnFold_inv q k hk s.m_root.inorder [] []
        (by simp) (fun _ => rfl) (by simp) (by simp)
      simp only [List.nil_append] at g1 g3 g4
      refine ⟨?_, fun h => absurd h h1, fun h => absurd h hk0, ?_, ?_⟩
      · rw [heq, g1, ← hsz]
        omega
      · intro x hx
        rw [heq] at hx
        exact g3 x hx
      · intro p hp hnp x hx
        rw [heq] at hnp hx
        rcases g4 p hp with h | h
        · exact absurd h hnp
        · exact le_trans (dmax_ge q _ x hx) h

/-- Instantiation of `knn_bounded_selection` on the spec running example with
`k = 2`. -/
theorem knn_bounded_selection_inst :
    (baseSet.nearestK ⟨0, 0⟩ 2).length = min 2 baseSet.m_size ∧
    (baseSet.m_size ≤ 2 → baseSet.nearestK ⟨0, 0⟩ 2 = baseSet.m_root.inorder) ∧
    (2 = 0 → baseSet.nearestK ⟨0, 0⟩ 2 = []) ∧
    (∀ x ∈ baseSet.nearestK ⟨0, 0⟩ 2, x ∈ baseSet.m_root.inorder) ∧
    (∀ p ∈ baseSet.m_root.inorder, p ∉ baseSet.nearestK ⟨0, 0⟩ 2 →
      ∀ x ∈ baseSet.nearestK ⟨0, 0⟩ 2,
        Point.distSq ⟨0, 0⟩ x ≤ Point.distSq ⟨0, 0⟩ p) :=
  knn_bounded_selection baseSet ⟨0, 0⟩ 2 (Reachable.bulk _)

/-! Containment after insertion, and the no-op behaviour of duplicate puts. -/

lemma findB_insertAux_self (p : Point) : ∀ (t : KdTree) (d : Nat),
    (t.insertAux p d).1.findB p = true := by
  intro t
  induction t with
  | nil =>
    intro d
    simp [KdTree.insertAux, KdTree.findB, point_eq_self]
  | node pt dep l r ihl ihr =>
    intro d
    rw [insertAux_node]
    by_cases heq : Point.eq pt p
    · rw [if_pos heq]
      simp [KdTree.findB, heq]
    · by_cases hax : axisC dep p ≤ axisC dep pt
      · rw [if_neg heq, if_pos hax]
        simp only [KdTree.findB, if_neg heq, if_pos hax]
        exact ihl (d + 1)
      · rw [if_neg heq, if_neg hax]
        simp only [KdTree.findB, if_neg heq, if_neg hax]
        exact ihr (d + 1)

lemma findB_insertAux_mono (p p2 : Point) : ∀ (t : KdTree) (d : Nat),
    t.findB p = true → (t.insertAux p2 d).1.findB p = true := by
  intro t
  induction t with
  | nil =>
    intro d h
    simp [KdTree.findB] at h
  | node pt dep l r ihl ihr =>
    intro d hfind
    rw [insertAux_node]
    by_cases h2 : Point.eq pt p2
    · rw [if_pos h2]
      exact hfind
    · by_cases heq : Point.eq pt p
      · by_cases hax2 : axisC dep p2 ≤ axisC dep pt
        · rw [if_neg h2, if_pos hax2]
          simp [KdTree.findB, heq]
        · rw [if_neg h2, if_neg hax2]
          simp [KdTree.findB, heq]
      · simp only [KdTree.findB, if_neg heq] at hfind
        by_cases hax : axisC dep p ≤ axisC dep pt
        · rw [if_pos hax] at hfind
          by_cases hax2 : axisC dep p2 ≤ axisC dep pt
          · rw [if_neg h2, if_pos hax2]
            simp only [KdTree.findB, if_neg heq, if_pos hax]
            exact ihl (d + 1) hfind
          · rw [if_neg h2, if_neg hax2]
            simp only [KdTree.findB, if_neg heq, if_pos hax]
            exact hfind
        · rw [if_neg hax] at hfind
          by_cases hax2 : axisC dep p2 ≤ axisC dep pt
          · rw [if_neg h2, if_pos hax2]
            simp only [KdTree.findB, if_neg heq, if_neg hax]
            exact hfind
          · rw [if_neg h2, if_neg hax2]
            simp only [KdTree.findB, if_neg heq, if_neg hax]
            exact ihr (d + 1) hfind

lemma insertAux_blocked (p : Point) : ∀ (t : KdTree) (d b : Nat),
    t.wf d = true → t.dle b = true → t.findB p = true →
    ∃ m, t.insertAux p d = (t, false, m) ∧ m ≤ b := by
  intro t
  induction t with
  | nil =>
    intro d b _ _ h
    simp [KdTree.findB] at h
  | node pt dep l r ihl ihr =>
    intro d b hwf hdle hfind
    rw [wf_node] at hwf
    obtain ⟨hdep, -, -, hwl, hwr⟩ := hwf
    simp only [KdTree.dle, Bool.and_eq_true, decide_eq_true_eq] at hdle
    obtain ⟨⟨hdb, hld⟩, hrd⟩ := hdle
    rw [insertAux_node]
    by_cases heq : Point.eq pt p
    · rw [if_pos heq]
      exact ⟨d, rfl, by omega⟩
    · simp only [KdTree.findB, if_neg heq] at hfind
      by_cases hax : axisC dep p ≤ axisC dep pt
      · rw [if_pos hax] at hfind
        obtain ⟨m, hm, hmb⟩ := ihl (d + 1) b hwl hld hfind
        rw [if_neg heq, if_pos hax, hm]
        exact ⟨max d m, rfl, by omega⟩
      · rw [if_neg hax] at hfind
        obtain ⟨m, hm, hmb⟩ := ihr (d + 1) b hwr hrd hfind
        rw [if_neg heq, if_neg hax, hm]
        exact ⟨max d m, rfl, by omega⟩

lemma putInsert_noop (s : PointSet) (p : Point) (hr : Reachable s)
    (hc : s.contains p = true) : s.putInsert p = s := by
  obtain ⟨hwf, hdle, -⟩ := reachable_good s hr
  obtain ⟨m, hins, hm⟩ := insertAux_blocked p s.m_root 0 s.max_depth hwf hdle hc
  cases s with
  | mk md rt sz =>
    simp [PointSet.putInsert, hins, Nat.max_eq_left hm]

/-- C4 (amended): `contains(p)` holds right after a `put(p)` whose rebuild
trigger does not fire, and containment of any point is preserved by further
puts whose trigger does not fire; a put that does trigger a rebuild can lose
containment of a point whose original put was absorbed by an epsilon-equal
stored point (see `containment_lost_after_rebuild`). -/
theorem containment_after_put_and_without_rebuild :
    (∀ (cond : Nat → Nat → Bool) (s : PointSet) (p : Point),
      cond (s.putInsert p).max_depth (s.putInsert p).m_size = false →
      (s.put cond p).contains p = true) ∧
    (∀ (cond : Nat → Nat → Bool) (s : PointSet) (p r2 : Point),
      s.contains p = true →
      cond (s.putInsert r2).max_depth (s.putInsert r2).m_size = false →
      (s.put cond r2).contains p = true) := by
  constructor
  · intro cond s p hc
    have hput : s.put cond p = s.putInsert p := by
      show (s.putInsert p).reBuild cond = s.putInsert p
      unfold PointSet.reBuild
      rw [hc]
      simp
    rw [hput]
    exact findB_insertAux_self p s.m_root 0
  · intro cond s p r2 hcont hc
    have hput : s.put cond r2 = s.putInsert r2 := by
      show (s.putInsert r2).reBuild cond = s.putInsert r2
      unfold PointSet.reBuild
      rw [hc]
      simp
    rw [hput]
    exact findB_insertAux_mono p r2 s.m_root 0 hcont

/-- Instantiation of `containment_after_put_and_without_rebuild`: put `(1,1)`
into the empty set, then put `(2,2)`; both rebuild checks are false and
`contains (1,1)` holds after each step. -/
theorem containment_after_put_and_without_rebuild_inst :
    ((fromList []).put rebuildCond ⟨1, 1⟩).contains ⟨1, 1⟩ = true ∧
    (((fromList []).put rebuildCond ⟨1, 1⟩).put rebuildCond
      ⟨2, 2⟩).contains ⟨1, 1⟩ = true :=
  ⟨containment_after_put_and_without_rebuild.1 rebuildCond (fromList [])
      ⟨1, 1⟩ (by decide),
    containment_after_put_and_without_rebuild.2 rebuildCond
      ((fromList []).put rebuildCond ⟨1, 1⟩) ⟨1, 1⟩ ⟨2, 2⟩ (by decide)
      (by decide)⟩

/-- C8 (amended): a put of a point already found by `contains` (an
epsilon-equal point on its own search path, in particular an exact re-put) is
a no-op for the insertion step - the tree, `size` and `max_depth` are all
unchanged - and the second of two identical puts leaves the whole state
unchanged whenever its rebuild trigger is false.  Put of a point
epsilon-equal to a stored point that is off its search path is NOT a no-op
(see `insert_duplicate_off_path_grows_size`), so `size` counts
path-distinct points, not globally epsilon-distinct ones. -/
theorem insert_noop_on_contained_point :
    (∀ (s : PointSet) (p : Point), Reachable s → s.contains p = true →
      s.putInsert p = s) ∧
    (∀ (cond : Nat → Nat → Bool) (s : PointSet) (p : Point),
      Reachable s →
      (s.put cond p).contains p = true →
      cond (s.put cond p).max_depth (s.put cond p).m_size = false →
      (s.put cond p).put cond p = s.put cond p) := by
  constructor
  · exact fun s p hr hc => putInsert_noop s p hr hc
  · intro cond s p hr hc hcond
    have h1 : (s.put cond p).putInsert p = s.put cond p :=
      putInsert_noop _ p (Reachable.putStep cond p hr) hc
    show ((s.put cond p).putInsert p).reBuild cond = s.put cond p
    rw [h1]
    unfold PointSet.reBuild
    rw [hcond]
    simp

/-- Instantiation of `insert_noop_on_contained_point`: re-putting `(1,1)` is
a no-op, both as a bare insertion step and as a full second `put`. -/
theorem insert_noop_on_contained_point_inst :
    (fromList [⟨1, 1⟩]).putInsert ⟨1, 1⟩ = fromList [⟨1, 1⟩] ∧
    ((fromList []).put rebuildCond ⟨1, 1⟩).put rebuildCond ⟨1, 1⟩ =
      (fromList []).put rebuildCond ⟨1, 1⟩ :=
  ⟨insert_noop_on_contained_point.1 (fromList [⟨1, 1⟩]) ⟨1, 1⟩
      (Reachable.bulk _) (by decide),
    insert_noop_on_contained_point.2 rebuildCond (fromList []) ⟨1, 1⟩
      (Reachable.bulk _) (by decide) (by decide)⟩

/-- C5: for any resolution `cond` of the floating-point trigger that agrees
with the exact condition `max_depth > 2 * log(size)` at the state reached by
the insertion step, `put` either (trigger true) discards the tree and rebuilds
the whole state through the tree builder from the in-order dump of the
current points, starting from zeroed `m_size` and `max_depth`
(`PointSet.emptySet`), or (trigger false) returns exactly the state the
insertion produced. -/
theorem put_rebuild_policy (cond : Nat → Nat → Bool) (s : PointSet) (p : Point)
    (hc : cond (s.putInsert p).max_depth (s.putInsert p).m_size = true ↔
      ((s.putInsert p).max_depth : ℝ) >
        2 * Real.log ((s.putInsert p).m_size : ℝ)) :
    (((s.putInsert p).max_depth : ℝ) >
        2 * Real.log ((s.putInsert p).m_size : ℝ) →
      s.put cond p =
        (buildTreeList (s.putInsert p).m_root.inorder.length PointSet.emptySet
          (s.putInsert p).m_root.inorder 0
          (s.putInsert p).m_root.inorder.length 0).1) ∧
    (¬ (((s.putInsert p).max_depth : ℝ) >
        2 * Real.log ((s.putInsert p).m_size : ℝ)) →
      s.put cond p = s.putInsert p) := by
  constructor
  · intro h
    have hb : cond (s.putInsert p).max_depth (s.putInsert p).m_size = true :=
      hc.2 h
    show (s.putInsert p).reBuild cond = _
    unfold PointSet.reBuild
    rw [hb]
    simp
  · intro h
    have hb : cond (s.putInsert p).max_depth (s.putInsert p).m_size = false := by
      cases hcv : cond (s.putInsert p).max_depth (s.putInsert p).m_size with
      | true => exact absurd (hc.1 hcv) h
      | false => rfl
    show (s.putInsert p).reBuild cond = _
    unfold PointSet.reBuild
    rw [hb]
    simp

/-- Instantiation of `put_rebuild_policy` at the put of `cexM1` into `cexS4`:
the insertion step reaches `(max_depth, size) = (3, 4)`, the exact condition
`3 > 2 * log 4` holds, `rebuildCond` agrees, and the put rebuilds from the
in-order dump. -/
theorem put_rebuild_policy_inst :
    cexS4.put rebuildCond cexM1 =
      (buildTreeList (cexS4.putInsert cexM1).m_root.inorder.length
        PointSet.emptySet (cexS4.putInsert cexM1).m_root.inorder 0
        (cexS4.putInsert cexM1).m_root.inorder.length 0).1 := by
  have h1 : (cexS4.putInsert cexM1).max_depth = 3 := by decide
  have h2 : (cexS4.putInsert cexM1).m_size = 4 := by decide
  have hreal : ((cexS4.putInsert cexM1).max_depth : ℝ) >
      2 * Real.log ((cexS4.putInsert cexM1).m_size : ℝ) := by
    rw [h1, h2]
    have := two_log_four_lt_three
    push_cast
    linarith
  refine (put_rebuild_policy rebuildCond cexS4 cexM1 ?_).1 hreal
  refine ⟨fun _ => hreal, fun _ => ?_⟩
  rw [h1, h2]
  decide

end RatEval
